import Mathlib

/-!
Shallow embedding of the czsc connector synchronization core
(`src/czsc/connectors/binance_cctx.py`,
`src/czsc/connectors/questioning-python_binance_connector.py`,
`src/czsc/connectors/akshare_connector.py`).

Timestamps are millisecond counts modelled as `Int`; prices and volumes are
modelled as `Int` (their exact numeric type is irrelevant to the claims, which
concern ordering, deduplication, merging, pagination and error control flow).
A pandas DataFrame of bars is modelled as a `List Bar` in row order.
-/

namespace CzscConn

/-- Canonical bar record produced by the connectors: one row of the
`dt, open, high, low, close, vol, amount` frame.  `dt` is the (close-time)
timestamp in milliseconds.  `open` is a Lean keyword, so the field is `openp`. -/
structure Bar where
  dt : Int
  openp : Int
  high : Int
  low : Int
  close : Int
  vol : Int
  amount : Int
deriving DecidableEq, Repr

/-- Comparison of bars by their `dt` column, the sort key used by
`sort_values("dt")`. -/
def dtLe (a b : Bar) : Prop := a.dt ≤ b.dt

/-- Strict version of `dtLe`; a series with pairwise `dtLt` rows is strictly
increasing in `dt` by row index. -/
def dtLt (a b : Bar) : Prop := a.dt < b.dt

instance : DecidableRel dtLe := fun a b => inferInstanceAs (Decidable (a.dt ≤ b.dt))

instance : DecidableRel dtLt := fun a b => inferInstanceAs (Decidable (a.dt < b.dt))

instance : IsTotal Bar dtLe := ⟨fun a b => Int.le_total a.dt b.dt⟩

instance : IsTrans Bar dtLe := ⟨fun _ _ _ h1 h2 => le_trans h1 h2⟩

instance : IsTrans Bar dtLt := ⟨fun _ _ _ h1 h2 => lt_trans h1 h2⟩

instance : IsAntisymm Bar dtLt := ⟨fun _ _ h1 h2 => absurd (lt_trans h1 h2) (lt_irrefl _)⟩

/-- Embedding of pandas `DataFrame.sort_values("dt")`: stable sort of the rows
by the `dt` column. -/
def sortByDt (l : List Bar) : List Bar := l.insertionSort dtLe

/-- Embedding of pandas `DataFrame.drop_duplicates("dt", keep="last")`
(binance_cctx.py lines 277 and 339): a row survives iff no later row of the
frame has the same `dt`; the surviving rows keep their relative order. -/
def dropDupKeepLast : List Bar → List Bar
  | [] => []
  | b :: rest =>
    if rest.any (fun x => decide (x.dt = b.dt)) then dropDupKeepLast rest
    else b :: dropDupKeepLast rest

/-- Rows of a frame whose `dt` equals `d` (in frame order). -/
def rowsWithDt (d : Int) (l : List Bar) : List Bar :=
  l.filter (fun b => decide (b.dt = d))

/-- The last row of the frame carrying timestamp `d`, if any: the row that
`drop_duplicates("dt", keep="last")` retains for that timestamp. -/
def lastRowWithDt (d : Int) (l : List Bar) : Option Bar :=
  (rowsWithDt d l).getLast?

/-- Embedding of the cache merge of `get_latest_klines`
(binance_cctx.py lines 338-340):
`pd.concat([df, df1])`, `drop_duplicates("dt", keep="last")`,
`sort_values("dt")`.  The result is both persisted (`to_feather`) and the
basis of the returned slice. -/
def mergeKlines (df df1 : List Bar) : List Bar :=
  sortByDt (dropDupKeepLast (df ++ df1))

/-- Helper for `dropDupKeepFirst`: `seen` is the set of `dt` values already
emitted; a row is kept iff its `dt` has not been seen before. -/
def dropDupKeepFirstAux (seen : List Int) : List Bar → List Bar
  | [] => []
  | b :: rest =>
    if seen.any (fun d => decide (d = b.dt)) then dropDupKeepFirstAux seen rest
    else b :: dropDupKeepFirstAux (b.dt :: seen) rest

/-- Embedding of pandas `DataFrame.drop_duplicates(subset=["dt"])` with the
default `keep="first"` (binance_cctx.py line 166): the first row of each `dt`
survives, in frame order. -/
def dropDupKeepFirst (l : List Bar) : List Bar := dropDupKeepFirstAux [] l

/-- Embedding of the cache merge of `update_crypto_cache`
(binance_cctx.py line 166): `pd.concat([df_old, df_new])` followed by
`drop_duplicates(subset=["dt"])` — note: default `keep="first"` and no
`sort_values` step. -/
def mergeCryptoCache (dfOld dfNew : List Bar) : List Bar :=
  dropDupKeepFirst (dfOld ++ dfNew)

theorem dropDupKeepLast_cons (a : Bar) (rest : List Bar) :
    dropDupKeepLast (a :: rest) =
      if rest.any (fun x => decide (x.dt = a.dt)) then dropDupKeepLast rest
      else a :: dropDupKeepLast rest := rfl

theorem dropDupKeepLast_sublist : ∀ l : List Bar, List.Sublist (dropDupKeepLast l) l := by
  intro l
  induction l with
  | nil => simp [dropDupKeepLast]
  | cons a rest ih =>
    rw [dropDupKeepLast_cons]
    by_cases h : (rest.any fun x => decide (x.dt = a.dt)) = true
    · rw [if_pos h]; exact ih.cons a
    · rw [if_neg h]; exact ih.cons₂ a

theorem any_dt_iff {d : Int} {l : List Bar} :
    (l.any fun x => decide (x.dt = d)) = true ↔ ∃ x ∈ l, x.dt = d := by
  simp [List.any_eq_true]

theorem rowsWithDt_cons (d : Int) (a : Bar) (l : List Bar) :
    rowsWithDt d (a :: l) =
      if a.dt = d then a :: rowsWithDt d l else rowsWithDt d l := by
  by_cases h : a.dt = d <;> simp [rowsWithDt, List.filter_cons, h]

theorem rowsWithDt_eq_nil_iff {d : Int} {l : List Bar} :
    rowsWithDt d l = [] ↔ ∀ b ∈ l, b.dt ≠ d := by
  simp [rowsWithDt, List.filter_eq_nil_iff]

theorem rowsWithDt_append (d : Int) (l1 l2 : List Bar) :
    rowsWithDt d (l1 ++ l2) = rowsWithDt d l1 ++ rowsWithDt d l2 := by
  simp [rowsWithDt]

theorem lastRowWithDt_cons_of_ne {a : Bar} {d : Int} (rest : List Bar) (h : a.dt ≠ d) :
    lastRowWithDt d (a :: rest) = lastRowWithDt d rest := by
  simp [lastRowWithDt, rowsWithDt_cons, h]

theorem lastRowWithDt_cons_of_mem {a : Bar} {d : Int} {rest : List Bar}
    (h : rowsWithDt d rest ≠ []) :
    lastRowWithDt d (a :: rest) = lastRowWithDt d rest := by
  unfold lastRowWithDt
  rw [rowsWithDt_cons]
  by_cases had : a.dt = d
  · rw [if_pos had]
    rcases List.exists_cons_of_ne_nil h with ⟨y, ys, hys⟩
    rw [hys]
    simp
  · rw [if_neg had]

theorem lastRowWithDt_eq_some {d : Int} {l : List Bar} {b : Bar}
    (h : lastRowWithDt d l = some b) : b ∈ l ∧ b.dt = d := by
  unfold lastRowWithDt at h
  have hmem : b ∈ rowsWithDt d l := by
    rcases List.getLast?_eq_some_iff.mp h with ⟨ys, hys⟩
    rw [hys]
    simp
  refine ⟨List.mem_of_mem_filter hmem, ?_⟩
  simpa using List.of_mem_filter hmem

theorem mem_dropDupKeepLast {b : Bar} : ∀ {l : List Bar},
    b ∈ dropDupKeepLast l ↔ lastRowWithDt b.dt l = some b := by
  intro l
  induction l with
  | nil => simp [dropDupKeepLast, lastRowWithDt, rowsWithDt]
  | cons a rest ih =>
    rw [dropDupKeepLast_cons]
    by_cases hdup : (rest.any fun x => decide (x.dt = a.dt)) = true
    · rw [if_pos hdup, ih]
      by_cases hab : a.dt = b.dt
      · rw [lastRowWithDt_cons_of_mem]
        rw [ne_eq, rowsWithDt_eq_nil_iff]
        push_neg
        rcases any_dt_iff.mp hdup with ⟨x, hx, hxd⟩
        exact ⟨x, hx, hxd.trans hab⟩
      · rw [lastRowWithDt_cons_of_ne rest hab]
    · rw [if_neg hdup]
      constructor
      · intro hb
        rcases List.mem_cons.mp hb with hb | hb
        · subst hb
          have hnil : rowsWithDt b.dt rest = [] := by
            rw [rowsWithDt_eq_nil_iff]
            intro x hx hxd
            exact hdup (any_dt_iff.mpr ⟨x, hx, hxd⟩)
          unfold lastRowWithDt
          rw [rowsWithDt_cons, if_pos rfl, hnil]
          simp
        · have hrest := ih.mp hb
          have hbne : a.dt ≠ b.dt := by
            intro he
            have hbmem : b ∈ rest := (lastRowWithDt_eq_some hrest).1
            exact hdup (any_dt_iff.mpr ⟨b, hbmem, he.symm⟩)
          rw [lastRowWithDt_cons_of_ne rest hbne]
          exact hrest
      · intro h
        by_cases hab : a.dt = b.dt
        · have hnil : rowsWithDt b.dt rest = [] := by
            rw [rowsWithDt_eq_nil_iff]
            intro x hx hxd
            exact hdup (any_dt_iff.mpr ⟨x, hx, hxd.trans hab.symm⟩)
          unfold lastRowWithDt at h
          rw [rowsWithDt_cons, if_pos hab, hnil] at h
          simp at h
          subst h
          exact List.mem_cons_self a _
        · rw [lastRowWithDt_cons_of_ne rest hab] at h
          exact List.mem_cons_of_mem a (ih.mpr h)

theorem nodup_dt_dropDupKeepLast : ∀ l : List Bar, ((dropDupKeepLast l).map Bar.dt).Nodup := by
  intro l
  induction l with
  | nil => simp [dropDupKeepLast]
  | cons a rest ih =>
    rw [dropDupKeepLast_cons]
    by_cases hdup : (rest.any fun x => decide (x.dt = a.dt)) = true
    · rwa [if_pos hdup]
    · rw [if_neg hdup]
      simp only [List.map_cons, List.nodup_cons]
      refine ⟨?_, ih⟩
      intro hmem
      rcases List.mem_map.mp hmem with ⟨x, hx, hxd⟩
      exact hdup (any_dt_iff.mpr ⟨x, (dropDupKeepLast_sublist rest).subset hx, hxd⟩)

theorem rowsWithDt_of_nodup {l : List Bar} (h : (l.map Bar.dt).Nodup) {b : Bar}
    (hb : b ∈ l) : rowsWithDt b.dt l = [b] := by
  induction l with
  | nil => cases hb
  | cons a rest ih =>
    simp only [List.map_cons, List.nodup_cons] at h
    rcases List.mem_cons.mp hb with hb | hb
    · subst hb
      rw [rowsWithDt_cons, if_pos rfl]
      have hnil : rowsWithDt b.dt rest = [] := by
        rw [rowsWithDt_eq_nil_iff]
        intro x hx hxd
        exact h.1 (List.mem_map.mpr ⟨x, hx, hxd⟩)
      rw [hnil]
    · have hne : a.dt ≠ b.dt := by
        intro he
        exact h.1 (List.mem_map.mpr ⟨b, hb, he.symm⟩)
      rw [rowsWithDt_cons, if_neg hne]
      exact ih h.2 hb

theorem lastRowWithDt_of_nodup {l : List Bar} (h : (l.map Bar.dt).Nodup) {b : Bar}
    (hb : b ∈ l) : lastRowWithDt b.dt l = some b := by
  unfold lastRowWithDt
  rw [rowsWithDt_of_nodup h hb]
  rfl

theorem lastRowWithDt_append_right {d : Int} {l2 : List Bar} (l1 : List Bar)
    (h : rowsWithDt d l2 ≠ []) :
    lastRowWithDt d (l1 ++ l2) = lastRowWithDt d l2 := by
  unfold lastRowWithDt
  rw [rowsWithDt_append, List.getLast?_append]
  rcases List.exists_cons_of_ne_nil h with ⟨y, ys, hys⟩
  rw [hys]
  cases hlast : (y :: ys).getLast? with
  | none => exact absurd (List.getLast?_eq_none_iff.mp hlast) (by simp)
  | some x => simp [hlast, Option.or]

theorem lastRowWithDt_append_left {d : Int} {l2 : List Bar} (l1 : List Bar)
    (h : rowsWithDt d l2 = []) :
    lastRowWithDt d (l1 ++ l2) = lastRowWithDt d l1 := by
  unfold lastRowWithDt
  rw [rowsWithDt_append, h, List.append_nil]

theorem mergeKlines_perm (df df1 : List Bar) :
    List.Perm (mergeKlines df df1) (dropDupKeepLast (df ++ df1)) :=
  List.perm_insertionSort dtLe _

theorem mem_mergeKlines {b : Bar} {df df1 : List Bar} :
    b ∈ mergeKlines df df1 ↔ lastRowWithDt b.dt (df ++ df1) = some b := by
  rw [(mergeKlines_perm df df1).mem_iff]
  exact mem_dropDupKeepLast

theorem nodup_dt_mergeKlines (df df1 : List Bar) :
    ((mergeKlines df df1).map Bar.dt).Nodup :=
  ((mergeKlines_perm df df1).map Bar.dt).nodup_iff.mpr (nodup_dt_dropDupKeepLast _)

theorem sorted_dtLe_mergeKlines (df df1 : List Bar) :
    List.Sorted dtLe (mergeKlines df df1) :=
  List.sorted_insertionSort dtLe _

theorem sorted_dtLt_mergeKlines (df df1 : List Bar) :
    List.Sorted dtLt (mergeKlines df df1) := by
  have hle := sorted_dtLe_mergeKlines df df1
  have hnd : List.Pairwise (fun a b : Bar => a.dt ≠ b.dt) (mergeKlines df df1) :=
    List.pairwise_map.mp (nodup_dt_mergeKlines df df1)
  exact (hle.and hnd).imp fun h => lt_of_le_of_ne h.1 h.2

theorem dropDupKeepFirstAux_cons (seen : List Int) (b : Bar) (rest : List Bar) :
    dropDupKeepFirstAux seen (b :: rest) =
      if seen.any (fun d => decide (d = b.dt)) then dropDupKeepFirstAux seen rest
      else b :: dropDupKeepFirstAux (b.dt :: seen) rest := rfl

theorem mem_dropDupKeepFirstAux_subset {b : Bar} :
    ∀ {seen : List Int} {l : List Bar}, b ∈ dropDupKeepFirstAux seen l → b ∈ l := by
  intro seen l
  induction l generalizing seen with
  | nil => intro h; cases h
  | cons a rest ih =>
    intro h
    rw [dropDupKeepFirstAux_cons] at h
    by_cases hs : (seen.any fun d => decide (d = a.dt)) = true
    · rw [if_pos hs] at h
      exact List.mem_cons_of_mem a (ih h)
    · rw [if_neg hs] at h
      rcases List.mem_cons.mp h with h | h
      · exact h ▸ List.mem_cons_self a rest
      · exact List.mem_cons_of_mem a (ih h)

theorem dt_notMem_seen_of_mem_dropDupKeepFirstAux {b : Bar} :
    ∀ {seen : List Int} {l : List Bar}, b ∈ dropDupKeepFirstAux seen l → b.dt ∉ seen := by
  intro seen l
  induction l generalizing seen with
  | nil => intro h; cases h
  | cons a rest ih =>
    intro h
    rw [dropDupKeepFirstAux_cons] at h
    by_cases hs : (seen.any fun d => decide (d = a.dt)) = true
    · rw [if_pos hs] at h
      exact ih h
    · rw [if_neg hs] at h
      rcases List.mem_cons.mp h with h | h
      · subst h
        intro hmem
        apply hs
        simp only [List.any_eq_true, decide_eq_true_eq]
        exact ⟨b.dt, hmem, rfl⟩
      · intro hmem
        exact ih h (List.mem_cons_of_mem a.dt hmem)

theorem nodup_dt_dropDupKeepFirstAux :
    ∀ (l : List Bar) (seen : List Int), ((dropDupKeepFirstAux seen l).map Bar.dt).Nodup := by
  intro l
  induction l with
  | nil => intro seen; simp [dropDupKeepFirstAux]
  | cons a rest ih =>
    intro seen
    rw [dropDupKeepFirstAux_cons]
    by_cases hs : (seen.any fun d => decide (d = a.dt)) = true
    · rw [if_pos hs]; exact ih seen
    · rw [if_neg hs]
      simp only [List.map_cons, List.nodup_cons]
      refine ⟨?_, ih (a.dt :: seen)⟩
      intro hmem
      rcases List.mem_map.mp hmem with ⟨x, hx, hxd⟩
      have := dt_notMem_seen_of_mem_dropDupKeepFirstAux hx
      exact this (by rw [hxd]; exact List.mem_cons_self a.dt seen)

theorem nodup_dt_mergeCryptoCache (dfOld dfNew : List Bar) :
    ((mergeCryptoCache dfOld dfNew).map Bar.dt).Nodup :=
  nodup_dt_dropDupKeepFirstAux (dfOld ++ dfNew) []

theorem mem_dropDupKeepFirstAux_append_left {b : Bar} :
    ∀ {l1 : List Bar} {seen : List Int} (l2 : List Bar),
      (l1.map Bar.dt).Nodup → (∀ x ∈ l1, x.dt ∉ seen) → b ∈ l1 →
      b ∈ dropDupKeepFirstAux seen (l1 ++ l2) := by
  intro l1
  induction l1 with
  | nil => intro seen l2 _ _ hb; cases hb
  | cons a rest ih =>
    intro seen l2 hnd hseen hb
    have hsa : (seen.any fun d => decide (d = a.dt)) = false := by
      rw [List.any_eq_false]
      intro d hd
      simp only [decide_eq_true_eq]
      intro he
      exact hseen a (List.mem_cons_self a rest) (he ▸ hd)
    rw [List.cons_append, dropDupKeepFirstAux_cons, if_neg (by simp [hsa])]
    rcases List.mem_cons.mp hb with hb | hb
    · exact hb ▸ List.mem_cons_self a _
    · refine List.mem_cons_of_mem a ?_
      simp only [List.map_cons, List.nodup_cons] at hnd
      refine ih l2 hnd.2 ?_ hb
      intro x hx
      rw [List.mem_cons]
      push_neg
      constructor
      · intro he
        exact hnd.1 (List.mem_map.mpr ⟨x, hx, he⟩)
      · exact hseen x (List.mem_cons_of_mem a hx)

/-- C1: the cache merge of `get_latest_klines` (concat, drop duplicate `dt`
keeping the last occurrence, sort by `dt`) is idempotent: merging the same
batch of fetched rows `R` into the result of merging `R` yields exactly the
series obtained by merging once, hence the persisted feather table and the
returned slice are the same after one merge or two. -/
theorem C1_merge_idempotent (S R : List Bar) :
    mergeKlines (mergeKlines S R) R = mergeKlines S R := by
  have hsorted1 : List.Sorted dtLt (mergeKlines (mergeKlines S R) R) :=
    sorted_dtLt_mergeKlines _ R
  have hsorted2 : List.Sorted dtLt (mergeKlines S R) := sorted_dtLt_mergeKlines S R
  have hnd1 : (mergeKlines (mergeKlines S R) R).Nodup :=
    (nodup_dt_mergeKlines _ R).of_map
  have hnd2 : (mergeKlines S R).Nodup := (nodup_dt_mergeKlines S R).of_map
  have hext : ∀ b, b ∈ mergeKlines (mergeKlines S R) R ↔ b ∈ mergeKlines S R := by
    intro b
    rw [mem_mergeKlines]
    by_cases hR : rowsWithDt b.dt R = []
    · rw [lastRowWithDt_append_left _ hR]
      constructor
      · intro h
        have hb : b ∈ mergeKlines S R := (lastRowWithDt_eq_some h).1
        exact hb
      · intro hb
        exact lastRowWithDt_of_nodup (nodup_dt_mergeKlines S R) hb
    · rw [lastRowWithDt_append_right _ hR]
      rw [mem_mergeKlines, lastRowWithDt_append_right _ hR]
  have hperm : List.Perm (mergeKlines (mergeKlines S R) R) (mergeKlines S R) :=
    (List.perm_ext_iff_of_nodup hnd1 hnd2).mpr hext
  exact List.eq_of_perm_of_sorted hperm hsorted1 hsorted2

/-- Bar with a given `dt` and zeroed price fields, used for concrete inputs. -/
def mkBar (d : Int) : Bar := ⟨d, 0, 0, 0, 0, 0, 0⟩

/-- Milliseconds in one day (`pd.Timedelta(days=1)`). -/
def ONE_DAY_MS : Int := 86400000

/-- Milliseconds in two days (`pd.Timedelta(days=2)`, the forward skew of the
fetch window in `get_latest_klines`). -/
def TWO_DAYS_MS : Int := 172800000

/-- Millisecond timestamp of 2017-01-01 00:00:00 UTC, the default `sdt`
(`pd.to_datetime("20170101")`) of `get_latest_klines`. -/
def EPOCH_2017_MS : Int := 1483228800000

/-- Maximum of the `dt` column (`df["dt"].max()`); only meaningful on a
non-empty frame, mirroring pandas where the max of an empty column is NaN. -/
def maxDtOf : List Bar → Int
  | [] => 0
  | [b] => b.dt
  | b :: rest => max b.dt (maxDtOf rest)

/-- Embedding of the tail of `get_raw_bars` (binance_cctx.py lines 305-314):
`fetched` is the frame returned by `__api_fetch_ohlcv` (already deduplicated
and sorted); the frame is clipped to `sdt <= dt <= edt` and, when the maximal
`dt` exceeds wall-clock `now` (`pd.Timestamp.now()`), the single last row is
dropped (`df.iloc[:-1]`, the incomplete-bar filter). -/
def getRawBars (fetched : List Bar) (sdt edt now : Int) : List Bar :=
  if fetched.isEmpty then fetched
  else
    let df := fetched.filter (fun b => decide (b.dt ≤ edt) && decide (sdt ≤ b.dt))
    if !df.isEmpty && decide (maxDtOf df > now) then df.dropLast else df

/-- Embedding of the resume-point computation of `get_latest_klines`
(binance_cctx.py lines 327-333): when the cache file exists, the next fetch
starts at `df["dt"].max() - pd.Timedelta(days=1)`; otherwise at the
caller-supplied `sdt` (already defaulted to `EPOCH_2017_MS`). -/
def resumeStart (cache : Option (List Bar)) (sdtPd : Int) : Int :=
  match cache with
  | some df => maxDtOf df - ONE_DAY_MS
  | none => sdtPd

/-- Embedding of `get_latest_klines` (binance_cctx.py lines 317-345).
`cache` is the content of the cache file if it exists, `fetch` abstracts the
`get_raw_bars` call as a function of the fetch window `(sdt, edt)`, and `now`
is `pd.Timestamp.now()` in milliseconds.  Returns the pair
(persisted series `df2`, returned slice `df3`). -/
def getLatestKlines (cache : Option (List Bar)) (sdt? : Option Int)
    (fetch : Int → Int → List Bar) (now : Int) : List Bar × List Bar :=
  let sdtPd := sdt?.getD EPOCH_2017_MS
  let edt := now + TWO_DAYS_MS
  let df := cache.getD []
  let df1 := fetch (resumeStart cache sdtPd) edt
  let df2 := mergeKlines df df1
  (df2, df2.filter fun b => decide (sdtPd < b.dt))

/-- C2 counterexample: the merge of `update_crypto_cache`
(binance_cctx.py line 166) performs no `sort_values` step, so when the freshly
fetched frame is not already in ascending `dt` order the persisted series is
not strictly increasing by row index: cached series `[dt=1]` merged with
fetched rows `[dt=3, dt=2]` persists `[1, 3, 2]`. -/
theorem C2_counterexample :
    mergeCryptoCache [mkBar 1] [mkBar 3, mkBar 2] = [mkBar 1, mkBar 3, mkBar 2] ∧
    ¬ List.Sorted dtLt (mergeCryptoCache [mkBar 1] [mkBar 3, mkBar 2]) := by
  constructor
  · rfl
  · intro h
    have := List.rel_of_sorted_cons (List.sorted_cons.mp h).2 (mkBar 2)
      (List.mem_singleton.mpr rfl)
    simp [dtLt, mkBar] at this

/-- C2 amended: the series persisted by `get_latest_klines` has pairwise
distinct, strictly increasing `dt` values; the series persisted by
`update_crypto_cache` has pairwise distinct `dt` values, but its merge omits
the sort, so ascending order is not guaranteed there. -/
theorem C2_amended (df df1 dfOld dfNew : List Bar) :
    List.Sorted dtLt (mergeKlines df df1) ∧
    ((mergeCryptoCache dfOld dfNew).map Bar.dt).Nodup :=
  ⟨sorted_dtLt_mergeKlines df df1, nodup_dt_mergeCryptoCache dfOld dfNew⟩

theorem maxDtOf_cons_cons (a c : Bar) (rest : List Bar) :
    maxDtOf (a :: c :: rest) = max a.dt (maxDtOf (c :: rest)) := rfl

theorem le_maxDtOf : ∀ {l : List Bar} {b : Bar}, b ∈ l → b.dt ≤ maxDtOf l := by
  intro l
  induction l with
  | nil => intro b hb; cases hb
  | cons a rest ih =>
    intro b hb
    cases rest with
    | nil =>
      have hba : b = a := List.mem_singleton.mp hb
      subst hba
      simp [maxDtOf]
    | cons c rest2 =>
      rw [maxDtOf_cons_cons]
      rcases List.mem_cons.mp hb with hb | hb
      · subst hb
        exact le_max_left _ _
      · exact le_trans (ih hb) (le_max_right _ _)

theorem two_le_length_of_mem_ne {l : List Bar} {a b : Bar} (ha : a ∈ l) (hb : b ∈ l)
    (hne : a ≠ b) : 2 ≤ l.length := by
  cases l with
  | nil => cases ha
  | cons x rest =>
    cases rest with
    | nil =>
      have h1 : a = x := List.mem_singleton.mp ha
      have h2 : b = x := List.mem_singleton.mp hb
      exact absurd (h1.trans h2.symm) hne
    | cons y rest2 =>
      simp only [List.length_cons]
      omega

/-- The fetch result used by the C3 counterexample: three strictly increasing,
deduplicated bars of which the last two close after wall-clock `now = 1000`. -/
def c3Fetched : List Bar := [mkBar 900, mkBar 1001, mkBar 1002]

/-- C3 counterexample: the incomplete-bar filter of `get_raw_bars`
(binance_cctx.py lines 311-312) drops only the single last row (`df.iloc[:-1]`),
so when two fetched rows lie in the future window the earlier of them survives:
with `now = 1000` and fetched close-times `[900, 1001, 1002]`, the row at
`dt = 1001 > now` is present in both the persisted series and the returned
slice of the sync call. -/
theorem C3_counterexample :
    mkBar 1001 ∈ (getLatestKlines none (some 0) (fun s e => getRawBars c3Fetched s e 1000) 1000).1 ∧
    mkBar 1001 ∈ (getLatestKlines none (some 0) (fun s e => getRawBars c3Fetched s e 1000) 1000).2 ∧
    (1000 : Int) < (mkBar 1001).dt := by
  decide

/-- C3 amended: `get_raw_bars` drops at most the single most recent row, so
its result is free of future rows only under the proviso that at most one
fetched row (inside the `[sdt, edt]` clip) has `dt` beyond wall-clock `now`;
under that proviso every returned row satisfies `dt ≤ now`. -/
theorem C3_amended (fetched : List Bar) (sdt edt now : Int)
    (hsorted : List.Sorted dtLt fetched)
    (hcount : ((fetched.filter (fun b => decide (b.dt ≤ edt) && decide (sdt ≤ b.dt))).filter
        (fun b => decide (now < b.dt))).length ≤ 1) :
    ∀ b ∈ getRawBars fetched sdt edt now, b.dt ≤ now := by
  intro b hb
  unfold getRawBars at hb
  by_cases hemp : fetched.isEmpty
  · rw [if_pos hemp] at hb
    rw [List.isEmpty_iff] at hemp
    subst hemp
    cases hb
  · rw [if_neg hemp] at hb
    set df := fetched.filter (fun b => decide (b.dt ≤ edt) && decide (sdt ≤ b.dt)) with hdf
    have hdfsorted : List.Sorted dtLt df := hsorted.filter _
    by_cases hcond : (!df.isEmpty && decide (maxDtOf df > now)) = true
    · rw [if_pos hcond] at hb
      simp only [Bool.and_eq_true, Bool.not_eq_true', decide_eq_true_eq] at hcond
      obtain ⟨hne', _⟩ := hcond
      have hdfne : df ≠ [] := by
        intro h
        rw [h] at hne'
        simp at hne'
      by_contra hbgt
      push_neg at hbgt
      have hbdf : b ∈ df := List.dropLast_subset df hb
      have hlastmem : df.getLast hdfne ∈ df := List.getLast_mem hdfne
      have hsplit : df.dropLast ++ [df.getLast hdfne] = df :=
        List.dropLast_append_getLast hdfne
      have hblt : dtLt b (df.getLast hdfne) := by
        have hpw : List.Pairwise dtLt (df.dropLast ++ [df.getLast hdfne]) := by
          rw [hsplit]
          exact hdfsorted
        exact (List.pairwise_append.mp hpw).2.2 b hb _ (List.mem_singleton.mpr rfl)
      have hlastgt : now < (df.getLast hdfne).dt := lt_trans hbgt hblt
      have hbmemf : b ∈ df.filter (fun x => decide (now < x.dt)) :=
        List.mem_filter.mpr ⟨hbdf, by simpa using hbgt⟩
      have hlmemf : df.getLast hdfne ∈ df.filter (fun x => decide (now < x.dt)) :=
        List.mem_filter.mpr ⟨hlastmem, by simpa using hlastgt⟩
      have hne2 : b ≠ df.getLast hdfne := by
        intro he
        rw [he] at hblt
        exact lt_irrefl _ hblt
      have h2 := two_le_length_of_mem_ne hbmemf hlmemf hne2
      omega
    · rw [if_neg hcond] at hb
      simp only [Bool.and_eq_true, Bool.not_eq_true', decide_eq_true_eq, not_and, not_lt]
        at hcond
      by_cases hdfe : df.isEmpty
      · rw [List.isEmpty_iff] at hdfe
        rw [hdfe] at hb
        cases hb
      · have hfalse : df.isEmpty = false := by
          rw [Bool.not_eq_true] at hdfe
          exact hdfe
        exact le_trans (le_maxDtOf hb) (hcond hfalse)

/-- C3 amended witness: concrete instance of `C3_amended` with one future row
(`dt = 1001`, `now = 1000`); the single surviving returned row closes at
`dt = 900 ≤ now`. -/
theorem C3_amended_witness :
    List.Sorted dtLt [mkBar 900, mkBar 1001] ∧
    (([mkBar 900, mkBar 1001].filter
        (fun b => decide (b.dt ≤ (172801000 : Int)) && decide ((0 : Int) ≤ b.dt))).filter
      (fun b => decide ((1000 : Int) < b.dt))).length ≤ 1 ∧
    mkBar 900 ∈ getRawBars [mkBar 900, mkBar 1001] 0 172801000 1000 ∧
    (mkBar 900).dt ≤ 1000 :=
  ⟨by decide, by decide, by decide,
    C3_amended [mkBar 900, mkBar 1001] 0 172801000 1000 (by decide) (by decide)
      (mkBar 900) (by decide)⟩

/-- Millisecond duration added to `dt` per interval token by
`__api_fetch_ohlcv` (binance_cctx.py lines 257-270): the elif chain mapping
`4h/2h/1h/30m/15m/5m/1m` to one interval duration; any other token (including
`1d`) adds nothing. -/
def intervalShiftMs (interval : String) : Int :=
  if interval = "4h" then 14400000
  else if interval = "2h" then 7200000
  else if interval = "1h" then 3600000
  else if interval = "30m" then 1800000
  else if interval = "15m" then 900000
  else if interval = "5m" then 300000
  else if interval = "1m" then 60000
  else 0

/-- Millisecond shift applied by `df["dt"] = pd.to_datetime(df["dt"]) +
pd.Timedelta(hours=8)` (binance_cctx.py line 273): UTC → Asia/Shanghai. -/
def TZ_SHIFT_MS : Int := 28800000

/-- Raw upstream kline in the 6-column shape `[open_ts, open, high, low,
close, volume]` (no `close_ts` column), the branch of `__api_fetch_ohlcv`
at lines 249-252 that uses the reported open time as the timestamp. -/
structure RawKline6 where
  openTs : Int
  o : Int
  h : Int
  l : Int
  c : Int
  v : Int
deriving DecidableEq, Repr

/-- Normalization of one 6-column raw row by `__api_fetch_ohlcv`
(binance_cctx.py lines 250-273): `dt` is the open timestamp plus one interval
duration plus the UTC+8 timezone shift; `amount` is synthesized as
`vol * close` (line 254). -/
def normalizeRow6 (interval : String) (k : RawKline6) : Bar :=
  { dt := k.openTs + intervalShiftMs interval + TZ_SHIFT_MS
  , openp := k.o
  , high := k.h
  , low := k.l
  , close := k.c
  , vol := k.v
  , amount := k.v * k.c }

/-- Frame-level normalization of `__api_fetch_ohlcv` on a 6-column payload
(binance_cctx.py lines 241-278): per-row normalization followed by
`drop_duplicates("dt", keep="last")` and `sort_values("dt")`. -/
def apiFetchNormalize6 (interval : String) (ks : List RawKline6) : List Bar :=
  sortByDt (dropDupKeepLast (ks.map (normalizeRow6 interval)))

theorem normalizeRow6_dt (interval : String) (k : RawKline6) :
    (normalizeRow6 interval k).dt = k.openTs + intervalShiftMs interval + TZ_SHIFT_MS := rfl

theorem intervalShiftMs_eq_zero {i : String}
    (h1 : i ≠ "1m") (h5 : i ≠ "5m") (h15 : i ≠ "15m") (h30 : i ≠ "30m")
    (h1h : i ≠ "1h") (h2h : i ≠ "2h") (h4h : i ≠ "4h") : intervalShiftMs i = 0 := by
  unfold intervalShiftMs
  rw [if_neg h4h, if_neg h2h, if_neg h1h, if_neg h30, if_neg h15, if_neg h5, if_neg h1]

/-- C4: for a raw upstream row whose reported timestamp is the bar's open
time `t0`, normalization under `5m` yields a `dt` of exactly `t0 + 5` minutes
past the (uniformly applied) UTC+8 timezone normalization of `t0`; likewise
each mapped interval `1m/15m/30m/1h/2h/4h` adds exactly one interval
duration, while `1d` and every unmapped interval token are left unshifted, so
all persisted bars carry close-time semantics. -/
theorem C4_close_time_shift (t0 : Int) (k : RawKline6) (hk : k.openTs = t0) :
    (normalizeRow6 ("1m") k).dt = (t0 + TZ_SHIFT_MS) + 60000 ∧
    (normalizeRow6 ("5m") k).dt = (t0 + TZ_SHIFT_MS) + 300000 ∧
    (normalizeRow6 ("15m") k).dt = (t0 + TZ_SHIFT_MS) + 900000 ∧
    (normalizeRow6 ("30m") k).dt = (t0 + TZ_SHIFT_MS) + 1800000 ∧
    (normalizeRow6 ("1h") k).dt = (t0 + TZ_SHIFT_MS) + 3600000 ∧
    (normalizeRow6 ("2h") k).dt = (t0 + TZ_SHIFT_MS) + 7200000 ∧
    (normalizeRow6 ("4h") k).dt = (t0 + TZ_SHIFT_MS) + 14400000 ∧
    (normalizeRow6 ("1d") k).dt = t0 + TZ_SHIFT_MS ∧
    ∀ i : String, i ∉ ["1m", "5m", "15m", "30m", "1h", "2h", "4h"] →
      (normalizeRow6 i k).dt = t0 + TZ_SHIFT_MS := by
  subst hk
  refine ⟨?_, ?_, ?_, ?_, ?_, ?_, ?_, ?_, ?_⟩
  · rw [normalizeRow6_dt, show intervalShiftMs ("1m") = (60000 : Int) from by decide]
    ring
  · rw [normalizeRow6_dt, show intervalShiftMs ("5m") = (300000 : Int) from by decide]
    ring
  · rw [normalizeRow6_dt, show intervalShiftMs ("15m") = (900000 : Int) from by decide]
    ring
  · rw [normalizeRow6_dt, show intervalShiftMs ("30m") = (1800000 : Int) from by decide]
    ring
  · rw [normalizeRow6_dt, show intervalShiftMs ("1h") = (3600000 : Int) from by decide]
    ring
  · rw [normalizeRow6_dt, show intervalShiftMs ("2h") = (7200000 : Int) from by decide]
    ring
  · rw [normalizeRow6_dt, show intervalShiftMs ("4h") = (14400000 : Int) from by decide]
    ring
  · rw [normalizeRow6_dt, show intervalShiftMs ("1d") = (0 : Int) from by decide]
    ring
  · intro i hi
    simp only [List.mem_cons, List.not_mem_nil, or_false, not_or] at hi
    obtain ⟨h1, h5, h15, h30, h1h, h2h, h4h⟩ := hi
    rw [normalizeRow6_dt, intervalShiftMs_eq_zero h1 h5 h15 h30 h1h h2h h4h]
    ring

/-- C4 witness: instance of `C4_close_time_shift` at `t0 = 0`, including the
unmapped interval `6h`. -/
theorem C4_close_time_shift_witness :
    (⟨0, 1, 2, 3, 4, 5⟩ : RawKline6).openTs = 0 ∧
    (normalizeRow6 ("5m") ⟨0, 1, 2, 3, 4, 5⟩).dt = ((0 : Int) + TZ_SHIFT_MS) + 300000 ∧
    (normalizeRow6 ("6h") ⟨0, 1, 2, 3, 4, 5⟩).dt = (0 : Int) + TZ_SHIFT_MS :=
  ⟨rfl, (C4_close_time_shift 0 ⟨0, 1, 2, 3, 4, 5⟩ rfl).2.1,
    (C4_close_time_shift 0 ⟨0, 1, 2, 3, 4, 5⟩ rfl).2.2.2.2.2.2.2.2 ("6h") (by decide)⟩

/-- Cached row used by the C6 counterexample (close price 10). -/
def oldBar : Bar := ⟨100, 1, 1, 1, 10, 1, 10⟩

/-- Freshly fetched row at the same `dt` used by the C6 counterexample
(close price 20). -/
def newBar : Bar := ⟨100, 2, 2, 2, 20, 2, 40⟩

/-- C6 counterexample: the merge of `update_crypto_cache`
(binance_cctx.py line 166) calls `drop_duplicates(subset=["dt"])` with the
default `keep="first"`, so when a `dt` occurs in both the cached series and
the fetched rows, the STALE CACHED row is kept, not the freshly fetched one. -/
theorem C6_counterexample :
    mergeCryptoCache [oldBar] [newBar] = [oldBar] ∧ oldBar ≠ newBar ∧
    oldBar.dt = newBar.dt := by
  decide

/-- C6 amended: in the merge of `get_latest_klines`, the freshly fetched row
wins for a duplicated `dt` (the kept row is the last occurrence within the
fetched frame) and cached rows whose `dt` does not occur among the fetched
rows are preserved; in the merge of `update_crypto_cache`, by contrast, the
previously cached row wins for a duplicated `dt` (`keep="first"`). -/
theorem C6_amended (S R dfOld dfNew : List Bar) (b : Bar)
    (hS : (S.map Bar.dt).Nodup) (hOld : (dfOld.map Bar.dt).Nodup) :
    (lastRowWithDt b.dt R = some b → b ∈ mergeKlines S R) ∧
    (b ∈ S → rowsWithDt b.dt R = [] → b ∈ mergeKlines S R) ∧
    (b ∈ dfOld → b ∈ mergeCryptoCache dfOld dfNew) := by
  refine ⟨?_, ?_, ?_⟩
  · intro h
    rw [mem_mergeKlines]
    have hne : rowsWithDt b.dt R ≠ [] := by
      intro hnil
      rw [lastRowWithDt, hnil] at h
      cases h
    rw [lastRowWithDt_append_right S hne]
    exact h
  · intro hb hnil
    rw [mem_mergeKlines, lastRowWithDt_append_left S hnil]
    exact lastRowWithDt_of_nodup hS hb
  · intro hb
    exact mem_dropDupKeepFirstAux_append_left dfNew hOld (by simp) hb

/-- C6 amended witness: concrete instance of `C6_amended`; the fetched row
`newBar` displaces `oldBar` in the `get_latest_klines` merge, the unrelated
cached row `mkBar 50` is preserved, and `oldBar` survives the
`update_crypto_cache` merge against `newBar`. -/
theorem C6_amended_witness :
    (([oldBar] : List Bar).map Bar.dt).Nodup ∧
    (([oldBar] : List Bar).map Bar.dt).Nodup ∧
    ((lastRowWithDt newBar.dt [newBar] = some newBar → newBar ∈ mergeKlines [oldBar] [newBar]) ∧
      (newBar ∈ [oldBar] → rowsWithDt newBar.dt [newBar] = [] → newBar ∈ mergeKlines [oldBar] [newBar]) ∧
      (newBar ∈ [oldBar] → newBar ∈ mergeCryptoCache [oldBar] [newBar])) :=
  ⟨by decide, by decide, C6_amended [oldBar] [newBar] [oldBar] [newBar] newBar
    (by decide) (by decide)⟩

/-- C7: the slice returned by `get_latest_klines` (binance_cctx.py line 343,
`df3 = df2[df2["dt"] > sdt_pd]`) contains only rows with `dt` strictly
greater than the requested start (which defaults to the 2017-01-01 epoch),
even though the persisted series `df2` may contain rows at or before it. -/
theorem C7_boundary_filter (cache : Option (List Bar)) (sdt? : Option Int)
    (fetch : Int → Int → List Bar) (now : Int) (b : Bar)
    (hb : b ∈ (getLatestKlines cache sdt? fetch now).2) :
    sdt?.getD EPOCH_2017_MS < b.dt := by
  unfold getLatestKlines at hb
  simp only at hb
  have := List.of_mem_filter hb
  simpa using this

/-- C7 witness: with requested start `sdt = 100`, the persisted series holds
rows at `dt = 50` and `dt = 200` but the returned slice holds only `dt = 200`,
and `C7_boundary_filter` applies to it. -/
theorem C7_boundary_filter_witness :
    mkBar 200 ∈ (getLatestKlines (some [mkBar 50]) (some 100)
      (fun _ _ => [mkBar 200]) 1000).2 ∧
    (some (100 : Int)).getD EPOCH_2017_MS < (mkBar 200).dt :=
  ⟨by decide, C7_boundary_filter (some [mkBar 50]) (some 100)
    (fun _ _ => [mkBar 200]) 1000 (mkBar 200) (by decide)⟩

/-- Raw kline as seen by the pagination loops: only the open timestamp
(index 0 of the row, milliseconds) drives the cursor. -/
structure Kline where
  ts : Int
deriving DecidableEq, Repr

/-- Timestamp of the last row of a page (`klines[-1][0]`), defaulting to `d`
on an empty page (the loops never read it on an empty page). -/
def lastTs (ks : List Kline) (d : Int) : Int := ((ks.map Kline.ts).getLast?).getD d

/-- Cursor advance of both pagination loops (binance_cctx.py lines 233-234,
questioning connector line 82): `cur = int(klines[-1][0]) + 1`. -/
def nextCursor (ks : List Kline) (d : Int) : Int := lastTs ks d + 1

/-- Embedding of the pagination loop of `__api_fetch_ohlcv`
(binance_cctx.py lines 219-236).  `page` abstracts
`api.get_klines(start_time=cur, ...)`: `Except.error` models the call
raising (caught by the `except` clause, which breaks the loop).  The Python
`while` loop is modelled with explicit fuel; termination is the subject of
the C5 theorem.  Returns the accumulated rows. -/
def apiFetchLoop (page : Int → Except Unit (List Kline)) (untilTs : Int) :
    Nat → Int → List Kline → List Kline
  | 0, _, acc => acc
  | fuel + 1, cur, acc =>
    if cur < untilTs then
      match page cur with
      | Except.error _ => acc
      | Except.ok [] => acc
      | Except.ok (k :: ks) =>
        apiFetchLoop page untilTs fuel (nextCursor (k :: ks) cur) (acc ++ (k :: ks))
    else acc

/-- Embedding of the pagination loop of the python-binance connector
(questioning-python_binance_connector.py lines 61-83).  The body has no
`try`/`except`, so a raising `client.get_klines` call propagates out of the
loop (modelled as `Except.error`), discarding the accumulated rows; only an
empty page stops the loop normally. -/
def qFetchLoop (page : Int → Except Unit (List Kline)) (endMs : Int) :
    Nat → Int → List Kline → Except Unit (List Kline)
  | 0, _, acc => Except.ok acc
  | fuel + 1, cur, acc =>
    if cur < endMs then
      match page cur with
      | Except.error e => Except.error e
      | Except.ok [] => Except.ok acc
      | Except.ok (k :: ks) =>
        qFetchLoop page endMs fuel (nextCursor (k :: ks) cur) (acc ++ (k :: ks))
    else Except.ok acc

theorem lastTs_mem (d : Int) : ∀ (k : Kline) (ks : List Kline),
    ∃ x ∈ k :: ks, lastTs (k :: ks) d = x.ts := by
  intro k ks
  induction ks generalizing k with
  | nil => exact ⟨k, List.mem_singleton.mpr rfl, rfl⟩
  | cons c rest ih =>
    rcases ih c with ⟨x, hx, hxe⟩
    refine ⟨x, List.mem_cons_of_mem k hx, ?_⟩
    rw [← hxe]
    simp [lastTs]

theorem apiFetchLoop_stops (page : Int → Except Unit (List Kline))
    (untilTs cur : Int) (acc : List Kline) (h : ¬ cur < untilTs) :
    ∀ fuel, apiFetchLoop page untilTs fuel cur acc = acc := by
  intro fuel
  cases fuel with
  | zero => rfl
  | succ n =>
    unfold apiFetchLoop
    rw [if_neg h]

theorem apiFetchLoop_error (page : Int → Except Unit (List Kline))
    (untilTs cur : Int) (acc : List Kline) (fuel : Nat) (h : cur < untilTs)
    (hpc : page cur = Except.error ()) :
    apiFetchLoop page untilTs (fuel + 1) cur acc = acc := by
  conv_lhs => unfold apiFetchLoop
  rw [if_pos h, hpc]

theorem apiFetchLoop_empty (page : Int → Except Unit (List Kline))
    (untilTs cur : Int) (acc : List Kline) (fuel : Nat) (h : cur < untilTs)
    (hpc : page cur = Except.ok []) :
    apiFetchLoop page untilTs (fuel + 1) cur acc = acc := by
  conv_lhs => unfold apiFetchLoop
  rw [if_pos h, hpc]

theorem apiFetchLoop_step (page : Int → Except Unit (List Kline))
    (untilTs cur : Int) (acc : List Kline) (fuel : Nat) (h : cur < untilTs)
    (k : Kline) (ks : List Kline) (hpc : page cur = Except.ok (k :: ks)) :
    apiFetchLoop page untilTs (fuel + 1) cur acc =
      apiFetchLoop page untilTs fuel (nextCursor (k :: ks) cur) (acc ++ (k :: ks)) := by
  conv_lhs => unfold apiFetchLoop
  rw [if_pos h, hpc]

/-- C5: whenever a pagination iteration of `__api_fetch_ohlcv` processes a
non-empty page whose rows all carry timestamps at or after the requested
start (the upstream `startTime` contract) — including a pathological page
whose rows all share one timestamp — the cursor `int(klines[-1][0]) + 1`
strictly increases, and consequently the loop's result is already reached
with `(untilTs - cur).toNat` fuel: the fetch terminates for every finite
upstream data set. -/
theorem C5_cursor_progress (page : Int → Except Unit (List Kline))
    (hpage : ∀ c ks, page c = Except.ok ks → ∀ k ∈ ks, c ≤ k.ts) :
    (∀ c k ks, page c = Except.ok (k :: ks) → c < nextCursor (k :: ks) c) ∧
    (∀ untilTs cur acc fuel, (untilTs - cur).toNat ≤ fuel →
      apiFetchLoop page untilTs fuel cur acc =
        apiFetchLoop page untilTs (untilTs - cur).toNat cur acc) := by
  have hprog : ∀ c k ks, page c = Except.ok (k :: ks) → c < nextCursor (k :: ks) c := by
    intro c k ks hpc
    rcases lastTs_mem c k ks with ⟨x, hx, hxe⟩
    have := hpage c (k :: ks) hpc x hx
    unfold nextCursor
    omega
  refine ⟨hprog, ?_⟩
  intro untilTs cur acc fuel
  induction fuel using Nat.strong_induction_on generalizing cur acc with
  | _ fuel ih =>
    intro hfuel
    by_cases hcl : cur < untilTs
    · have hn1 : 1 ≤ (untilTs - cur).toNat := by omega
      obtain ⟨f, rfl⟩ : ∃ f, fuel = f + 1 := ⟨fuel - 1, by omega⟩
      obtain ⟨m, hm⟩ : ∃ m, (untilTs - cur).toNat = m + 1 :=
        ⟨(untilTs - cur).toNat - 1, by omega⟩
      rw [hm]
      cases hpc : page cur with
      | error e =>
        cases e
        rw [apiFetchLoop_error page untilTs cur acc f hcl hpc,
          apiFetchLoop_error page untilTs cur acc m hcl hpc]
      | ok ks =>
        cases ks with
        | nil =>
          rw [apiFetchLoop_empty page untilTs cur acc f hcl hpc,
            apiFetchLoop_empty page untilTs cur acc m hcl hpc]
        | cons k rest =>
          have hlt := hprog cur k rest hpc
          have hfm : (untilTs - nextCursor (k :: rest) cur).toNat ≤ f := by omega
          have hfm2 : (untilTs - nextCursor (k :: rest) cur).toNat ≤ m := by omega
          rw [apiFetchLoop_step page untilTs cur acc f hcl k rest hpc,
            apiFetchLoop_step page untilTs cur acc m hcl k rest hpc,
            ih f (by omega) _ _ hfm, ih m (by omega) _ _ hfm2]
    · rw [apiFetchLoop_stops page untilTs cur acc hcl,
        apiFetchLoop_stops page untilTs cur acc hcl]

/-- Pathological upstream used as the C5 witness: every page consists of a
single row whose timestamp equals the cursor (all rows of the page share one
timestamp). -/
def pageOneTs : Int → Except Unit (List Kline) := fun c => Except.ok [⟨c⟩]

/-- C5 witness: `C5_cursor_progress` applied to `pageOneTs`: the cursor
strictly increases from 0, and the loop over window `[0, 3)` is already
stable at fuel 3 (checked against fuel 10). -/
theorem C5_cursor_progress_witness :
    (0 : Int) < nextCursor [⟨0⟩] 0 ∧
    apiFetchLoop pageOneTs 3 10 0 [] = apiFetchLoop pageOneTs 3 ((3 : Int) - 0).toNat 0 [] :=
  ⟨(C5_cursor_progress pageOneTs (by
      intro c ks hks k hk
      simp only [pageOneTs, Except.ok.injEq] at hks
      subst hks
      rcases List.mem_singleton.mp hk with rfl
      exact le_refl _)).1 0 ⟨0⟩ [] rfl,
    (C5_cursor_progress pageOneTs (by
      intro c ks hks k hk
      simp only [pageOneTs, Except.ok.injEq] at hks
      subst hks
      rcases List.mem_singleton.mp hk with rfl
      exact le_refl _)).2 3 0 [] 10 (by decide)⟩

instance : DecidableEq (Except Unit (List Kline)) := fun a b =>
  match a, b with
  | Except.error x, Except.error y => isTrue (by cases x; cases y; rfl)
  | Except.ok x, Except.ok y =>
    if h : x = y then isTrue (by rw [h]) else isFalse (fun he => h (by cases he; rfl))
  | Except.error _, Except.ok _ => isFalse (fun he => by cases he)
  | Except.ok _, Except.error _ => isFalse (fun he => by cases he)

/-- Upstream used by the C8 counterexample: the first page (cursor 0) returns
one row at timestamp 5, every later call raises. -/
def pageThenFail : Int → Except Unit (List Kline) := fun c =>
  if c = 0 then Except.ok [⟨5⟩] else Except.error ()

/-- C8 counterexample: in the python-binance connector's pagination loop
(questioning-python_binance_connector.py lines 63-83) the fetch call is not
wrapped in `try`/`except`, so a failing upstream call propagates to the
caller and the rows accumulated from earlier pages are lost: after one
successful page, the failing second call makes the whole run raise instead
of returning the partial result `[⟨5⟩]`. -/
theorem C8_counterexample :
    qFetchLoop pageThenFail 100 10 0 [] = Except.error () ∧
    qFetchLoop pageThenFail 100 10 0 [] ≠ Except.ok [⟨5⟩] := by
  decide

/-- C8 amended: in `__api_fetch_ohlcv`'s pagination loop an empty page or a
failing fetch call stops the loop and the rows accumulated so far are
returned; in the python-binance connector's loop only an empty page stops the
loop with the accumulated rows — a failing fetch call propagates as an error
to the caller. -/
theorem C8_amended (page : Int → Except Unit (List Kline)) (untilTs cur : Int)
    (acc : List Kline) (fuel : Nat) (hcur : cur < untilTs) :
    (page cur = Except.error () → apiFetchLoop page untilTs (fuel + 1) cur acc = acc) ∧
    (page cur = Except.ok [] → apiFetchLoop page untilTs (fuel + 1) cur acc = acc) ∧
    (page cur = Except.ok [] → qFetchLoop page untilTs (fuel + 1) cur acc = Except.ok acc) ∧
    (page cur = Except.error () → qFetchLoop page untilTs (fuel + 1) cur acc = Except.error ()) := by
  refine ⟨?_, ?_, ?_, ?_⟩
  · intro hpc
    exact apiFetchLoop_error page untilTs cur acc fuel hcur hpc
  · intro hpc
    exact apiFetchLoop_empty page untilTs cur acc fuel hcur hpc
  · intro hpc
    conv_lhs => unfold qFetchLoop
    rw [if_pos hcur, hpc]
  · intro hpc
    conv_lhs => unfold qFetchLoop
    rw [if_pos hcur, hpc]

/-- C8 amended witness: instance of `C8_amended` on an upstream that always
raises: the binance_cctx loop returns the previously accumulated row, the
python-binance loop surfaces the error. -/
theorem C8_amended_witness :
    apiFetchLoop (fun _ => Except.error ()) 100 (3 + 1) 6 [⟨5⟩] = [⟨5⟩] ∧
    qFetchLoop (fun _ => Except.error ()) 100 (3 + 1) 6 [⟨5⟩] = Except.error () :=
  ⟨(C8_amended (fun _ => Except.error ()) 100 6 [⟨5⟩] 3 (by decide)).1 rfl,
    (C8_amended (fun _ => Except.error ()) 100 6 [⟨5⟩] 3 (by decide)).2.2.2 rfl⟩

/-- C9: the start of the incremental fetch window of `get_latest_klines`
equals `df["dt"].max() - pd.Timedelta(days=1)` when the cache file exists and
the caller-supplied start (defaulting to the 2017-01-01 epoch) otherwise
(binance_cctx.py lines 327-333); consequently the sync result depends on the
fetcher only through its value on exactly that window. -/
theorem C9_resume_window (df : List Bar) (sdt? : Option Int)
    (fetch fetch2 : Int → Int → List Bar) (now : Int) :
    resumeStart (some df) (sdt?.getD EPOCH_2017_MS) = maxDtOf df - ONE_DAY_MS ∧
    resumeStart none (sdt?.getD EPOCH_2017_MS) = sdt?.getD EPOCH_2017_MS ∧
    resumeStart none (Option.getD none EPOCH_2017_MS) = EPOCH_2017_MS ∧
    (fetch (maxDtOf df - ONE_DAY_MS) (now + TWO_DAYS_MS) =
        fetch2 (maxDtOf df - ONE_DAY_MS) (now + TWO_DAYS_MS) →
      getLatestKlines (some df) sdt? fetch now = getLatestKlines (some df) sdt? fetch2 now) ∧
    (fetch (sdt?.getD EPOCH_2017_MS) (now + TWO_DAYS_MS) =
        fetch2 (sdt?.getD EPOCH_2017_MS) (now + TWO_DAYS_MS) →
      getLatestKlines none sdt? fetch now = getLatestKlines none sdt? fetch2 now) := by
  refine ⟨rfl, rfl, rfl, ?_, ?_⟩
  · intro h
    unfold getLatestKlines
    simp only [resumeStart, h]
  · intro h
    unfold getLatestKlines
    simp only [resumeStart, h]

/-- C9 witness: instance of `C9_resume_window` with a one-row cache at
`dt = EPOCH_2017_MS + 2 * ONE_DAY_MS` and two fetchers that agree on the
resume window, hence produce identical sync results. -/
theorem C9_resume_window_witness :
    resumeStart (some [mkBar (EPOCH_2017_MS + 2 * ONE_DAY_MS)]) ((none : Option Int).getD EPOCH_2017_MS) =
      maxDtOf [mkBar (EPOCH_2017_MS + 2 * ONE_DAY_MS)] - ONE_DAY_MS ∧
    getLatestKlines (some [mkBar (EPOCH_2017_MS + 2 * ONE_DAY_MS)]) none (fun s _ => [mkBar (s + 1)]) 0 =
      getLatestKlines (some [mkBar (EPOCH_2017_MS + 2 * ONE_DAY_MS)]) none (fun s _ => [mkBar (s + 1)]) 0 :=
  ⟨(C9_resume_window [mkBar (EPOCH_2017_MS + 2 * ONE_DAY_MS)] none
      (fun s _ => [mkBar (s + 1)]) (fun s _ => [mkBar (s + 1)]) 0).1,
    (C9_resume_window [mkBar (EPOCH_2017_MS + 2 * ONE_DAY_MS)] none
      (fun s _ => [mkBar (s + 1)]) (fun s _ => [mkBar (s + 1)]) 0).2.2.2.1 rfl⟩

/-- Column-structure view of the raw akshare frame handed to `_normalize_df`
(akshare_connector.py lines 45-88): the list of column names and whether the
frame's index is of numeric dtype kind (`df.index.dtype.kind in "uif"`, the
only case in which line 69 derives `dt` from the index; `pd.to_datetime` on a
numeric index is modelled as succeeding).  Row values play no role in the
control flow the C10 claim is about. -/
structure AkFrame where
  cols : List String
  indexNumeric : Bool
deriving DecidableEq, Repr

/-- The `col_map` rename table built by `_normalize_df`
(akshare_connector.py lines 47-59), as an association list: timestamp
variants map to `dt`; the Chinese price columns are added only when the frame
has an `开盘` column, the identity entries only when it has an `open` column. -/
def akColMap (cols : List String) : List (String × String) :=
  (if cols.contains ("时间") then [("时间", "dt")] else []) ++
  (if cols.contains ("datetime") then [("datetime", "dt")] else []) ++
  (if cols.contains ("日期") then [("日期", "dt")] else []) ++
  (if cols.contains ("开盘") then
    [("开盘", "open"), ("最高", "high"), ("最低", "low"), ("收盘", "close"),
      ("成交量", "vol"), ("成交额", "amount")] else []) ++
  (if cols.contains ("open") then
    [("open", "open"), ("high", "high"), ("low", "low"), ("close", "close"),
      ("vol", "vol"), ("amount", "amount")] else [])

/-- Application of the rename table to one column name (`df.rename(columns=col_map)`). -/
def akApplyRename (m : List (String × String)) (c : String) : String :=
  match m.find? (fun p => p.1 == c) with
  | some p => p.2
  | none => c

/-- Renamed column list of `_normalize_df` (`df.rename(columns=col_map)`,
akshare_connector.py line 61). -/
def akRenamedCols (f : AkFrame) : List String :=
  f.cols.map (akApplyRename (akColMap f.cols))

/-- Column list after the timestamp-derivation step of `_normalize_df`
(akshare_connector.py lines 63-71): when no `dt` column was resolved, a `dt`
column is derived from the index only if the index dtype is numeric; the
`except: pass` otherwise leaves the frame without a `dt` column. -/
def akColsWithDt (f : AkFrame) : List String :=
  if (akRenamedCols f).contains ("dt") then akRenamedCols f
  else if f.indexNumeric then akRenamedCols f ++ ["dt"] else akRenamedCols f

/-- Column list after synthesizing absent price/volume columns as null
(akshare_connector.py lines 74-76). -/
def akColsWithPrices (f : AkFrame) : List String :=
  akColsWithDt f ++ (["open", "high", "low", "close", "vol"].filter
    (fun c => !(akColsWithDt f).contains c))

/-- Column list after the `amount` synthesis (akshare_connector.py lines 79-83). -/
def akColsWithAmount (f : AkFrame) : List String :=
  if (akColsWithPrices f).contains ("amount") then akColsWithPrices f
  else akColsWithPrices f ++ ["amount"]

/-- Standard-column selection of `_normalize_df` (akshare_connector.py
line 85): keep only the standard columns that exist. -/
def akSelectedCols (f : AkFrame) : List String :=
  ["dt", "open", "high", "low", "close", "vol", "amount"].filter
    (fun c => (akColsWithAmount f).contains c)

/-- Embedding of `_normalize_df` at column granularity
(akshare_connector.py lines 45-88): after renaming, timestamp derivation and
column synthesis, the call `df.drop_duplicates("dt", ...)` on line 86 raises
a `KeyError` when no `dt` column exists — modelled as `Except.error`; on
success the `symbol` column is appended (line 87). -/
def akNormalizeCols (f : AkFrame) : Except String (List String) :=
  if (akSelectedCols f).contains ("dt") then Except.ok (akSelectedCols f ++ ["symbol"])
  else Except.error ("KeyError: dt")

theorem contains_append_str (l1 l2 : List String) (s : String) :
    (l1 ++ l2).contains s = (l1.contains s || l2.contains s) := by
  simp [List.contains_eq_any_beq, List.any_append]

theorem contains_filter_eq_false (base : List String) (p : String → Bool) (s : String)
    (h : p s = false) : (base.filter p).contains s = false := by
  rw [List.contains_eq_any_beq, List.any_eq_false]
  intro x hx hbeq
  rw [beq_iff_eq] at hbeq
  subst hbeq
  rcases List.mem_filter.mp hx with ⟨_, hpx⟩
  rw [h] at hpx
  exact absurd hpx (by decide)

theorem contains_filter_eq_false_of_base (base : List String) (p : String → Bool)
    (s : String) (h : base.contains s = false) : (base.filter p).contains s = false := by
  rw [List.contains_eq_any_beq, List.any_eq_false]
  intro x hx hbeq
  rw [beq_iff_eq] at hbeq
  subst hbeq
  rcases List.mem_filter.mp hx with ⟨hxb, _⟩
  rw [List.contains_eq_any_beq, List.any_eq_false] at h
  exact h s hxb (by simp)

/-- C10 counterexample: a raw frame with no resolvable timestamp column and a
non-numeric index (`cols = ["foo", "bar"]`) makes `_normalize_df` raise a
`KeyError` from `drop_duplicates("dt")` instead of completing with
null-timestamp rows. -/
theorem C10_counterexample :
    akNormalizeCols (AkFrame.mk ["foo", "bar"] false) = Except.error ("KeyError: dt") := by
  rfl

/-- C10 amended: whenever the rename table resolves no timestamp column and
the index is not numeric (so no timestamp can be derived from it),
`_normalize_df` does not complete: it fails with the `KeyError` raised by
`drop_duplicates("dt")` on the dt-less frame, rather than retaining rows with
a null timestamp. -/
theorem C10_amended (f : AkFrame)
    (hno : (akRenamedCols f).contains ("dt") = false)
    (hidx : f.indexNumeric = false) :
    akNormalizeCols f = Except.error ("KeyError: dt") := by
  have h1 : akColsWithDt f = akRenamedCols f := by
    unfold akColsWithDt
    rw [hno, hidx]
    rw [if_neg (by decide), if_neg (by decide)]
  have h2 : (akColsWithPrices f).contains ("dt") = false := by
    unfold akColsWithPrices
    rw [contains_append_str, h1, hno, Bool.false_or]
    exact contains_filter_eq_false_of_base _ _ _ (by decide)
  have h3 : (akColsWithAmount f).contains ("dt") = false := by
    unfold akColsWithAmount
    by_cases ham : (akColsWithPrices f).contains ("amount") = true
    · rw [ham, if_pos rfl]
      exact h2
    · rw [Bool.not_eq_true] at ham
      rw [ham, if_neg (by decide), contains_append_str, h2]
      decide
  have h4 : (akSelectedCols f).contains ("dt") = false :=
    contains_filter_eq_false _ _ _ h3
  unfold akNormalizeCols
  rw [h4, if_neg (by decide)]

/-- C10 amended witness: `C10_amended` applied to the frame with columns
`["foo"]` and a non-numeric index. -/
theorem C10_amended_witness :
    (akRenamedCols (AkFrame.mk ["foo"] false)).contains ("dt") = false ∧
    (AkFrame.mk ["foo"] false).indexNumeric = false ∧
    akNormalizeCols (AkFrame.mk ["foo"] false) = Except.error ("KeyError: dt") :=
  ⟨by rfl, rfl, C10_amended (AkFrame.mk ["foo"] false) (by rfl) rfl⟩

end CzscConn
